import Mathlib

/-!
Verification of the CHM-to-PDF conversion pipeline (Originn/ChatFactoryApp).

This file shallowly embeds the core ordering/reconciliation logic of the
repository:

* the Sequencer (`copy_files_in_order`, from the generated `orderHTM.py`
  copy loop in `CHMconverter/automation.py` and
  `HTMLOrganizer._copy_files_in_order` in
  `CHMconverter-cloud/automation_cloud.py`),
* the TOC parsers (`orderHTM_extract` for the classic generated script,
  `parse_hhc_file` for `HTMLOrganizer._parse_hhc_file`),
* the asset path normalizer (`fix_asset_paths`, `remove_show_framing`,
  the batch drivers `removeText_main` and `process_all`),
* the asset-flattening pass (`copy_assets_to_flat_structure`),
* the merge order resolver (`extract_number`, `combine_pdfs_order`).

Modelling conventions: Python strings are Lean `String`s; the filesystem's
set of extracted files is a Boolean predicate `String → Bool` (the result of
`os.path.exists` on the joined candidate path); a filesystem directory tree
is a `List FsFile` in `os.walk` enumeration order; a parsed markup document
(BeautifulSoup is an external collaborator) is the flat, document-order list
of its elements `List MarkupElem`; Python code that can raise is modelled
with `Except`/`Option`; reading + charset-detecting + decoding + parsing one
document (all delegated to external collaborators, any of which can raise)
is modelled as an `Except String (List MarkupElem)` input value.
-/

/-! ### Character and digit-string helpers -/

/-- Is `c` an ASCII decimal digit (as tested by the regex class `\d`
restricted to ASCII filenames)? -/
def isDigitChar (c : Char) : Bool := 48 ≤ c.toNat && c.toNat ≤ 57

/-- Value of a big-endian ASCII digit string, as computed by Python
`int(...)` on a group of `\d` characters. -/
def digitsVal (l : List Char) : Nat :=
  l.foldl (fun a c => a * 10 + (c.toNat - 48)) 0

/-- The ASCII character for the decimal digit `d`. -/
def digitChar (d : Nat) : Char := Char.ofNat (48 + d)

/-- Big-endian decimal digit characters of `n`, with explicit recursion
fuel (adequate whenever `n ≤ fuel`); empty for `0`. -/
def decimalDigitsAux : Nat → Nat → List Char
  | 0, _ => []
  | fuel + 1, n =>
    if n = 0 then [] else decimalDigitsAux fuel (n / 10) ++ [digitChar (n % 10)]

/-- Big-endian decimal digit characters of `n` (empty for `0`). -/
def bigEndianDigits (n : Nat) : List Char := decimalDigitsAux n n

/-- The characters produced by Python `f"{n:04d}"`: the decimal numeral of
`n`, left-padded with zeros to at least four characters. -/
def padChars (n : Nat) : List Char :=
  List.replicate (4 - (bigEndianDigits n).length) '0' ++ bigEndianDigits n

/-- Python `os.path.basename` on a POSIX path, character-list worker:
the suffix after the last `/` (the accumulator is reset at each `/`). -/
def baseChars : List Char → List Char → List Char
  | [], acc => acc
  | c :: rest, acc =>
    if c = '/' then baseChars rest [] else baseChars rest (acc ++ [c])

/-- Python `os.path.basename` on a POSIX path. -/
def basename (s : String) : String := String.mk (baseChars s.data [])

/-- The output filename `f"{rank:04d}_" + base` written by the Sequencer
(`new_filename = index_prefix + base_filename` in `orderHTM.py`,
`f"{index:04d}_{base_filename}"` in `automation_cloud.py`). -/
def output_filename (rank : Nat) (base : String) : String :=
  String.mk (padChars rank ++ '_' :: base.data)

/-- Characters of `s` before the first `#`. -/
def takeUntilHash : List Char → List Char
  | [] => []
  | c :: rest => if c = '#' then [] else c :: takeUntilHash rest

/-- Python `filename.split('#')[0]`: the prefix of `s` before its first
`#` (fragment removal in both TOC parsers). -/
def takeBeforeHash (s : String) : String := String.mk (takeUntilHash s.data)

/-- ASCII lower-casing of one character (Python `str.lower` restricted to
the ASCII attribute values and filenames this program handles). -/
def lowerChar (c : Char) : Char :=
  if 65 ≤ c.toNat ∧ c.toNat ≤ 90 then Char.ofNat (c.toNat + 32) else c

/-- ASCII lower-casing of a string. -/
def lowerString (s : String) : String := String.mk (s.data.map lowerChar)

/-- Does the character list `needle` occur at the head of `hay`? -/
def leadsWith : List Char → List Char → Bool
  | [], _ => true
  | _ :: _, [] => false
  | a :: as, b :: bs => a == b && leadsWith as bs

/-- Python substring test `needle in hay`. -/
def occursIn (needle : List Char) : List Char → Bool
  | [] => leadsWith needle []
  | c :: rest => leadsWith needle (c :: rest) || occursIn needle rest

/-- Python `s.endswith(suffix)`. -/
def endsWithChars (suffix : String) (s : String) : Bool :=
  leadsWith suffix.data.reverse s.data.reverse

/-! ### The Sequencer

Embeds the copy loop generated into `orderHTM.py` by
`create_order_htm_script` (`CHMconverter/automation.py`, lines 119-143) and
`HTMLOrganizer._copy_files_in_order` (`CHMconverter-cloud/automation_cloud.py`,
lines 175-193).  Both walk the TOC references in order with state
`last_copied_filename`/`last_copied` (initially `None`, modelled `none`) and
`index` (initially `1`); a reference is copied exactly when its candidate
source path exists (`ex f = true`) and its basename differs from the last
copied basename; copying emits `(index, basename)` and advances both pieces
of state; otherwise the state is unchanged.  `ex : String → Bool` models
`os.path.exists (os.path.join (extraction_dir, filename))`. -/

def copy_files_in_order (ex : String → Bool) :
    List String → Option String → Nat → List (Nat × String)
  | [], _, _ => []
  | f :: fs, last, index =>
    if ex f = true ∧ last ≠ some (basename f) then
      (index, basename f) :: copy_files_in_order ex fs (some (basename f)) (index + 1)
    else
      copy_files_in_order ex fs last index

/-- The ranks `s, s+1, ..., s+n-1`: the shape of a contiguous rank sequence
of length `n` starting at `s`. -/
def rankRange (s n : Nat) : List Nat :=
  match n with
  | 0 => []
  | n + 1 => s :: rankRange (s + 1) n

/-! ### Parsed markup documents

BeautifulSoup (the markup-parsing collaborator, external per spec §6) is
modelled by its observable output: the flat, document-order list of parsed
elements.  `html.parser` lower-cases tag and attribute names itself, so the
embeddings below compare tag names and attribute keys literally. -/

/-- One parsed markup element: tag name, attribute list (first occurrence
wins on lookup, as in a parsed attribute dict), and its string content
(BeautifulSoup's `.string`, the text used by the `string=` filters). -/
structure MarkupElem where
  tag : String
  attrs : List (String × String)
  textContent : String
deriving DecidableEq, Repr

/-- Attribute lookup, `tag['key']` / `tag.get('key')`. -/
def lookupAttr (key : String) (e : MarkupElem) : Option String :=
  (e.attrs.find? (fun kv => kv.1 == key)).map Prod.snd

/-! ### TOC parsers

Classic: the list comprehension in the generated `orderHTM.py`
(`CHMconverter/automation.py`, lines 94-101); cloud:
`HTMLOrganizer._parse_hhc_file` (`automation_cloud.py`, lines 159-173). -/

/-- The `find_all('param', {'name': lambda x: x and x.lower() == 'local'})`
filter: a `param` element whose `name` attribute is present and equals
`local` case-insensitively. -/
def isLocalParam (e : MarkupElem) : Bool :=
  e.tag == "param" &&
    (match lookupAttr "name" e with
     | some v => lowerString v == "local"
     | none => false)

/-- The list comprehension `[param['value'] for param in ...]` evaluated
left to right: the subscript `param['value']` raises `KeyError` at the
first matched param that has no `value` attribute. -/
def extractValues : List MarkupElem → Except String (List String)
  | [] => Except.ok []
  | e :: rest =>
    match lookupAttr "value" e with
    | some v =>
      match extractValues rest with
      | Except.ok vs => Except.ok (v :: vs)
      | Except.error msg => Except.error msg
    | none => Except.error "KeyError: value"

/-- Classic TOC parser: `[param['value'] for param in soup.find_all(...)]`
followed by `[filename.split('#')[0] for filename in html_files_ordered]`. -/
def orderHTM_extract (doc : List MarkupElem) : Except String (List String) :=
  (extractValues (doc.filter (fun e => isLocalParam e))).map
    (List.map takeBeforeHash)

/-- Cloud TOC parser `HTMLOrganizer._parse_hhc_file`: same filter, but a
matched param lacking a `value` attribute is skipped
(`if 'value' in param.attrs`), and the fragment is stripped per value. -/
def parse_hhc_file (doc : List MarkupElem) : List String :=
  (doc.filter (fun e => isLocalParam e)).filterMap
    (fun e => (lookupAttr "value" e).map takeBeforeHash)

/-! ### Asset Path Normalizer

`fix_image_paths` (`CHMconverter/removeText.py`, lines 35-55) and
`HTMLProcessor._fix_asset_paths` (`automation_cloud.py`, lines 311-326):
for every `img` with a `src`, every `link` with `rel="stylesheet"` and an
`href`, and every `script` with a `src`, replace the attribute value by
`os.path.basename` of itself. -/

/-- Replace the value of every attribute named `key` by its basename
(`img['src'] = os.path.basename(img['src'])` and so forth: the assignment
happens only when the attribute is present, which the map encodes by
leaving non-matching attributes unchanged). -/
def updateAttr (key : String) (attrs : List (String × String)) :
    List (String × String) :=
  attrs.map (fun kv => if kv.1 == key then (kv.1, basename kv.2) else kv)

/-- Per-element action of the three `find_all` rewrite loops.  A tag is an
`img`, a stylesheet `link`, or a `script` for at most one of the loops. -/
def fixElem (e : MarkupElem) : MarkupElem :=
  if e.tag == "img" then
    { e with attrs := updateAttr "src" e.attrs }
  else if e.tag == "link" && (lookupAttr "rel" e == some "stylesheet") then
    { e with attrs := updateAttr "href" e.attrs }
  else if e.tag == "script" then
    { e with attrs := updateAttr "src" e.attrs }
  else e

/-- Whole-document asset path rewrite. -/
def fix_asset_paths (doc : List MarkupElem) : List MarkupElem :=
  doc.map fixElem

/-- The marker of the legacy navigation script removed by both
implementations. -/
def showFramingMarker : List Char := "show framing".data

/-- The `find('script', string=lambda x: x and text_to_remove in x)`
filter: a `script` element whose string content contains the marker (an
empty string is falsy in Python, and the empty content never contains the
non-empty marker, so the truthiness guard needs no extra clause). -/
def isFramingScript (e : MarkupElem) : Bool :=
  e.tag == "script" && occursIn showFramingMarker e.textContent.data

/-- Classic script removal: `soup.find(...)` followed by one `decompose`
removes only the first matching script. -/
def removeFirstFraming : List MarkupElem → List MarkupElem
  | [] => []
  | e :: rest => if isFramingScript e then rest else e :: removeFirstFraming rest

/-- Classic per-document transformation inside `remove_show_framing`
(after the document has been read, decoded and parsed). -/
def process_doc_classic (doc : List MarkupElem) : List MarkupElem :=
  removeFirstFraming (fix_asset_paths doc)

/-- Cloud per-document transformation inside
`HTMLProcessor._process_single_file`: the `find_all` loop decomposes every
matching script. -/
def process_doc_cloud (doc : List MarkupElem) : List MarkupElem :=
  (fix_asset_paths doc).filter (fun e => !(isFramingScript e))

/-- Classic `remove_show_framing(file_path, ...)`: reading, charset
detection, decoding and parsing are external collaborators whose combined
fallible outcome is the `Except` input; any exception they raise
propagates, because `remove_show_framing` contains no handler. -/
def remove_show_framing (r : Except String (List MarkupElem)) :
    Except String (List MarkupElem) :=
  r.map process_doc_classic

/-- Cloud `HTMLProcessor._process_single_file`: the whole body is inside
`try/except`, so a raising document yields `none` (the `False` return)
instead of propagating. -/
def process_single_file (r : Except String (List MarkupElem)) :
    Option (List MarkupElem) :=
  match r with
  | Except.ok d => some (process_doc_cloud d)
  | Except.error _ => none

/-- First maximal digit run of `l` that is immediately followed by `_`,
as found by `re.search(r'(\d+)_', l)`: `prev` accumulates the digit run
currently being scanned (in reverse).  A digit extends the run; a `_`
right after a nonempty run matches and the run is the group; any other
character resets the run.  Interior positions of a failed run cannot start
a match, so this scan is exactly the regex search. -/
def findDigitsUnderscore (prev : List Char) : List Char → Option Nat
  | [] => none
  | c :: rest =>
    if isDigitChar c then findDigitsUnderscore (c :: prev) rest
    else if c = '_' ∧ prev ≠ [] then some (digitsVal prev.reverse)
    else findDigitsUnderscore [] rest

/-- Leading maximal digit run of `l`, as matched by
`re.search(r'^(\d+)', l)`. -/
def leadingDigits : List Char → Option Nat
  | [] => none
  | c :: rest =>
    if isDigitChar c then some (digitsVal ((c :: rest).takeWhile isDigitChar))
    else none

/-- The sort key of the batch drivers and of `_get_html_files`:
`int(re.search(r'(\d+)_', os.path.basename(x)).group(1))`.  `none` models
the `AttributeError` raised when the pattern does not match. -/
def rank_key (name : String) : Option Nat :=
  findDigitsUnderscore [] (basename name).data

/-- `rank_key` with the convention `0` for the impossible case, used only
under the guard that every key is present. -/
def rankKeyD (name : String) : Nat := (rank_key name).getD 0

/-- Sorting relation of the batch drivers (by numeric filename prefix). -/
def rankLe (a b : String × Except String (List MarkupElem)) : Prop :=
  rankKeyD a.1 ≤ rankKeyD b.1

instance : DecidableRel rankLe := fun _ _ => Nat.decLe _ _

/-- Classic batch driver: the bottom of `removeText.py` (lines 88-98
without the flattening pass).  Sorting by numeric prefix raises
`AttributeError` if any filename lacks a `\d+_` group; then the plain
`for` loop calls `remove_show_framing` on each file with no exception
handler, so the first raising document aborts the whole batch. -/
def removeText_main (files : List (String × Except String (List MarkupElem))) :
    Except String (List (String × List MarkupElem)) :=
  if (files.all (fun f => (rank_key f.1).isSome)) = true then
    (List.insertionSort rankLe files).mapM
      (fun f => (remove_show_framing f.2).map (fun d => (f.1, d)))
  else Except.error "AttributeError"

/-- Cloud batch driver `HTMLProcessor.process_all`: `_get_html_files`
sorts with the same fallible key inside the driver's own `try` block (a
key failure fails the whole batch), then every document is processed
through `_process_single_file`, whose internal handler turns a
per-document failure into its own `False`/`none` result without stopping
the map. -/
def process_all (files : List (String × Except String (List MarkupElem))) :
    Except String (List (String × Option (List MarkupElem))) :=
  if (files.all (fun f => (rank_key f.1).isSome)) = true then
    Except.ok ((List.insertionSort rankLe files).map
      (fun f => (f.1, process_single_file f.2)))
  else Except.error "AttributeError"

/-- A concrete three-document batch whose middle document fails to read
or decode, used to exercise the batch failure policy. -/
def demoBatch : List (String × Except String (List MarkupElem)) :=
  [("0001_a.htm", Except.ok [⟨"p", [], "hi"⟩]),
   ("0002_b.htm", Except.error "UnicodeDecodeError"),
   ("0003_c.htm", Except.ok [⟨"p", [], "bye"⟩])]

/-! ### Asset flattening

`copy_assets_to_flat_structure` (`CHMconverter/removeText.py`, lines
13-33) and `HTMLProcessor._copy_assets_to_flat_structure`
(`automation_cloud.py`, lines 328-340): walk the document directory; every
file in a subdirectory whose name is not markup-like is copied to the top
level under its bare name, unless that destination already exists. -/

/-- One file of the document directory: subdirectory components relative
to the directory root (`[]` means top level), bare name, and content
(abstracted to a number; `shutil.copy2` copies content verbatim). -/
structure FsFile where
  dir : List String
  name : String
  content : Nat
deriving DecidableEq, Repr

/-- `file.lower().endswith(('.htm', '.html', '.hhc', '.hhk'))`. -/
def isDocFile (s : String) : Bool :=
  endsWithChars ".htm" (lowerString s) || endsWithChars ".html" (lowerString s) ||
    endsWithChars ".hhc" (lowerString s) || endsWithChars ".hhk" (lowerString s)

/-- `os.path.exists` of a top-level destination name in the current
directory state. -/
def existsTop (fs : List FsFile) (n : String) : Bool :=
  fs.any (fun f => decide (f.dir = []) && f.name == n)

/-- The guard of one walk step: non-markup name, source in a subdirectory
(`root != html_directory_path`), and destination not yet present. -/
def flattenCond (acc : List FsFile) (f : FsFile) : Bool :=
  !(isDocFile f.name) && decide (f.dir ≠ []) && !(existsTop acc f.name)

/-- The walk itself: `acc` is the live directory state consulted by the
existence check; the second argument is the (snapshot) enumeration of the
walked files.  A copy appends the file's content at the top level under
its bare name. -/
def flattenGo (acc : List FsFile) : List FsFile → List FsFile
  | [] => acc
  | f :: rest =>
    if flattenCond acc f then
      flattenGo (acc ++ [⟨[], f.name, f.content⟩]) rest
    else flattenGo acc rest

/-- The flattening pass over a directory state.  `os.walk` lists the top
level before any copy happens and copies only ever add top-level entries,
so the walked enumeration is the initial state itself. -/
def copy_assets_to_flat_structure (fs : List FsFile) : List FsFile :=
  flattenGo fs fs

/-- The files appended (in order) by a run of `flattenGo acc l`. -/
def addedFiles (acc : List FsFile) : List FsFile → List FsFile
  | [] => []
  | f :: rest =>
    if flattenCond acc f then
      ⟨[], f.name, f.content⟩ :: addedFiles (acc ++ [⟨[], f.name, f.content⟩]) rest
    else addedFiles acc rest

/-! ### Merge Order Resolver

Classic: `extract_number` and the `sorted` call in
`CHMconverter/combinePDFs.py` (lines 12-26); cloud: the sort in
`CloudPDFConverter.combine_pdfs` (`automation_cloud.py`, lines 414-427),
which has no sentinel fallback. -/

/-- `combinePDFs.extract_number`: first digit group followed by `_`
anywhere in the basename; else leading digits; else the sentinel
`999999` placing the file last. -/
def extract_number (filename : String) : Nat :=
  match findDigitsUnderscore [] (basename filename).data with
  | some n => n
  | none =>
    match leadingDigits (basename filename).data with
    | some n => n
    | none => 999999

/-- The cloud merge key `int(re.search(r'(\d+)_', basename).group(1))`:
`none` models the `AttributeError` raised when there is no match. -/
def cloud_extract_number (filename : String) : Option Nat :=
  findDigitsUnderscore [] (basename filename).data

/-- Comparison used by `sorted(pdf_files, key=extract_number)`. -/
def pdfLe (a b : String) : Prop := extract_number a ≤ extract_number b

instance : DecidableRel pdfLe := fun _ _ => Nat.decLe _ _

instance : IsTotal String pdfLe := ⟨fun _ _ => Nat.le_total _ _⟩

instance : IsTrans String pdfLe := ⟨fun _ _ _ => Nat.le_trans⟩

/-- The classic merge order: `sorted(pdf_files, key=extract_number)`.
Python's `sorted` is a stable sort by the key, and any two stable sorts
with the same total preorder agree, so insertion sort embeds it
faithfully. -/
def combine_pdfs_order (files : List String) : List String :=
  List.insertionSort pdfLe files

/-! ### Helper lemmas: decimal numerals and output filenames -/

theorem digitChar_toNat {d : Nat} (hd : d < 10) : (digitChar d).toNat = 48 + d := by
  interval_cases d <;> decide

theorem digitChar_isDigit {d : Nat} (hd : d < 10) : isDigitChar (digitChar d) = true := by
  interval_cases d <;> decide

theorem decimalDigitsAux_digits :
    ∀ fuel n, n ≤ fuel → ∀ c ∈ decimalDigitsAux fuel n, isDigitChar c = true := by
  intro fuel
  induction fuel with
  | zero =>
    intro n _ c hc
    simp [decimalDigitsAux] at hc
  | succ fuel ih =>
    intro n hn c hc
    by_cases h0 : n = 0
    · simp [decimalDigitsAux, h0] at hc
    · simp only [decimalDigitsAux, if_neg h0, List.mem_append,
        List.mem_singleton] at hc
      rcases hc with hc | hc
      · have hlt : n / 10 < n := Nat.div_lt_self (Nat.pos_of_ne_zero h0) (by norm_num)
        exact ih (n / 10) (by omega) c hc
      · subst hc
        exact digitChar_isDigit (Nat.mod_lt _ (by norm_num))

theorem foldl_digit_replicate_zero (k : Nat) :
    List.foldl (fun a c => a * 10 + (c.toNat - 48)) 0 (List.replicate k '0') = 0 := by
  induction k with
  | zero => rfl
  | succ k ih =>
    rw [List.replicate_succ, List.foldl_cons]
    exact ih

theorem digitsVal_decimalDigitsAux :
    ∀ fuel n, n ≤ fuel → digitsVal (decimalDigitsAux fuel n) = n := by
  intro fuel
  induction fuel with
  | zero =>
    intro n hn
    interval_cases n
    rfl
  | succ fuel ih =>
    intro n hn
    by_cases h0 : n = 0
    · simp [decimalDigitsAux, h0, digitsVal]
    · have hlt : n / 10 < n := Nat.div_lt_self (Nat.pos_of_ne_zero h0) (by norm_num)
      have hmod : n % 10 < 10 := Nat.mod_lt _ (by norm_num)
      simp only [decimalDigitsAux, if_neg h0, digitsVal, List.foldl_append,
        List.foldl_cons, List.foldl_nil]
      have hih : List.foldl (fun a c => a * 10 + (c.toNat - 48)) 0
          (decimalDigitsAux fuel (n / 10)) = n / 10 := ih (n / 10) (by omega)
      rw [hih, digitChar_toNat hmod]
      omega

theorem padChars_digits (n : Nat) : ∀ c ∈ padChars n, isDigitChar c = true := by
  intro c hc
  rw [padChars, List.mem_append] at hc
  rcases hc with hc | hc
  · rw [List.eq_of_mem_replicate hc]
    decide
  · exact decimalDigitsAux_digits n n (le_refl n) c hc

theorem digitsVal_padChars (n : Nat) : digitsVal (padChars n) = n := by
  rw [padChars, digitsVal, List.foldl_append, foldl_digit_replicate_zero]
  exact digitsVal_decimalDigitsAux n n (le_refl n)

theorem padChars_inj {m n : Nat} (h : padChars m = padChars n) : m = n := by
  have h2 := congrArg digitsVal h
  rwa [digitsVal_padChars, digitsVal_padChars] at h2

theorem digits_underscore_split :
    ∀ (l1 l2 t1 t2 : List Char),
      (∀ c ∈ l1, isDigitChar c = true) → (∀ c ∈ l2, isDigitChar c = true) →
      l1 ++ '_' :: t1 = l2 ++ '_' :: t2 → l1 = l2 ∧ t1 = t2 := by
  intro l1
  induction l1 with
  | nil =>
    intro l2 t1 t2 _ h2 heq
    cases l2 with
    | nil => simpa using heq
    | cons b bs =>
      simp only [List.nil_append, List.cons_append, List.cons.injEq] at heq
      have hb := h2 b (List.mem_cons_self b bs)
      rw [← heq.1] at hb
      exact absurd hb (by decide)
  | cons a as ih =>
    intro l2 t1 t2 h1 h2 heq
    cases l2 with
    | nil =>
      simp only [List.nil_append, List.cons_append, List.cons.injEq] at heq
      have ha := h1 a (List.mem_cons_self a as)
      rw [heq.1] at ha
      exact absurd ha (by decide)
    | cons b bs =>
      simp only [List.cons_append, List.cons.injEq] at heq
      obtain ⟨hab, htail⟩ := heq
      obtain ⟨hl, ht⟩ := ih bs t1 t2
        (fun c hc => h1 c (List.mem_cons_of_mem _ hc))
        (fun c hc => h2 c (List.mem_cons_of_mem _ hc)) htail
      exact ⟨by rw [hab, hl], ht⟩

theorem output_filename_inj {r1 r2 : Nat} {b1 b2 : String}
    (h : output_filename r1 b1 = output_filename r2 b2) : r1 = r2 ∧ b1 = b2 := by
  have hl : padChars r1 ++ '_' :: b1.data = padChars r2 ++ '_' :: b2.data :=
    congrArg String.data h
  obtain ⟨hp, hb⟩ := digits_underscore_split _ _ _ _
    (padChars_digits r1) (padChars_digits r2) hl
  refine ⟨padChars_inj hp, ?_⟩
  cases b1 with
  | mk d1 =>
    cases b2 with
    | mk d2 =>
      have hd : d1 = d2 := by simpa using hb
      rw [hd]

/-! ### Helper lemmas: the Sequencer -/

/-- Processing a dangling reference (candidate path does not exist)
changes nothing: neither output, nor rank counter, nor collapse state. -/
theorem copy_files_skip_missing (ex : String → Bool) (m : String) (hm : ex m = false) :
    ∀ (l1 l2 : List String) (last : Option String) (idx : Nat),
      copy_files_in_order ex (l1 ++ m :: l2) last idx
        = copy_files_in_order ex (l1 ++ l2) last idx := by
  intro l1
  induction l1 with
  | nil =>
    intro l2 last idx
    simp [copy_files_in_order, hm]
  | cons f fs ih =>
    intro l2 last idx
    simp only [List.cons_append, copy_files_in_order]
    by_cases h : ex f = true ∧ last ≠ some (basename f)
    · rw [if_pos h, if_pos h]
      exact congrArg _ (ih l2 (some (basename f)) (idx + 1))
    · rw [if_neg h, if_neg h]
      exact ih l2 last idx

/-- The ranks emitted from counter value `idx` are exactly
`idx, idx+1, ...`, one per emitted document. -/
theorem ranks_contiguous (ex : String → Bool) :
    ∀ (l : List String) (last : Option String) (idx : Nat),
      (copy_files_in_order ex l last idx).map Prod.fst
        = rankRange idx (copy_files_in_order ex l last idx).length := by
  intro l
  induction l with
  | nil => intro last idx; simp [copy_files_in_order, rankRange]
  | cons f fs ih =>
    intro last idx
    by_cases h : ex f = true ∧ last ≠ some (basename f)
    · simp only [copy_files_in_order, if_pos h, List.map_cons, List.length_cons,
        rankRange]
      rw [ih]
    · simp only [copy_files_in_order, if_neg h]
      exact ih _ _

/-- Every emitted rank is at least the starting counter value. -/
theorem rank_lower_bound (ex : String → Bool) :
    ∀ (l : List String) (last : Option String) (idx : Nat) (p : Nat × String),
      p ∈ copy_files_in_order ex l last idx → idx ≤ p.1 := by
  intro l
  induction l with
  | nil => intro last idx p hp; simp [copy_files_in_order] at hp
  | cons f fs ih =>
    intro last idx p hp
    by_cases h : ex f = true ∧ last ≠ some (basename f)
    · rw [copy_files_in_order, if_pos h] at hp
      rcases List.mem_cons.mp hp with hp | hp
      · subst hp; exact le_refl _
      · have := ih _ _ p hp
        omega
    · rw [copy_files_in_order, if_neg h] at hp
      exact ih _ _ p hp

/-- The emitted output filenames are pairwise distinct. -/
theorem output_names_nodup (ex : String → Bool) :
    ∀ (l : List String) (last : Option String) (idx : Nat),
      ((copy_files_in_order ex l last idx).map
        (fun p => output_filename p.1 p.2)).Nodup := by
  intro l
  induction l with
  | nil => intro last idx; simp [copy_files_in_order]
  | cons f fs ih =>
    intro last idx
    by_cases h : ex f = true ∧ last ≠ some (basename f)
    · rw [copy_files_in_order, if_pos h]
      simp only [List.map_cons, List.nodup_cons]
      refine ⟨?_, ih _ _⟩
      intro hmem
      obtain ⟨p, hp, hpe⟩ := List.mem_map.mp hmem
      have hge := rank_lower_bound ex fs (some (basename f)) (idx + 1) p hp
      have heq := (output_filename_inj hpe).1
      omega
    · rw [copy_files_in_order, if_neg h]
      exact ih _ _

/-! ### Claims about the Sequencer -/

/-- Claim C1: the Sequencer collapses only consecutive duplicates.  A reference
whose basename equals the basename of the immediately previously emitted
document is skipped and consumes no rank; a reference that exists and whose
basename differs from the last emitted basename is emitted at the current
rank, which then advances; and TOC order `[a, a, b, a]` (all existing)
yields exactly `a` at rank 1, `b` at rank 2, `a` at rank 3. -/
theorem C1_consecutive_duplicate_collapse :
    (∀ (ex : String → Bool) (f : String) (fs : List String) (idx : Nat),
        ex f = true →
        copy_files_in_order ex (f :: fs) (some (basename f)) idx
          = copy_files_in_order ex fs (some (basename f)) idx)
    ∧ (∀ (ex : String → Bool) (f : String) (fs : List String)
          (last : Option String) (idx : Nat),
        ex f = true → last ≠ some (basename f) →
        copy_files_in_order ex (f :: fs) last idx
          = (idx, basename f) :: copy_files_in_order ex fs (some (basename f)) (idx + 1))
    ∧ copy_files_in_order (fun s => s == "a.htm" || s == "b.htm")
        ["a.htm", "a.htm", "b.htm", "a.htm"] none 1
        = [(1, "a.htm"), (2, "b.htm"), (3, "a.htm")] := by
  refine ⟨?_, ?_, by decide⟩
  · intro ex f fs idx hex
    simp [copy_files_in_order, hex]
  · intro ex f fs last idx hex hlast
    simp [copy_files_in_order, hex, hlast]

/-- Witness for C1: a consecutive duplicate of an existing file is
collapsed, and a fresh existing file is emitted at the current rank. -/
theorem C1_witness :
    copy_files_in_order (fun s => s == "a.htm")
        ["a.htm", "x.htm"] (some (basename "a.htm")) 5
        = copy_files_in_order (fun s => s == "a.htm")
            ["x.htm"] (some (basename "a.htm")) 5
      ∧ copy_files_in_order (fun s => s == "a.htm") ["a.htm"] none 3
        = [(3, basename "a.htm")] := by
  constructor
  · exact C1_consecutive_duplicate_collapse.1 _ "a.htm" ["x.htm"] 5 (by decide)
  · have h := C1_consecutive_duplicate_collapse.2.1 (fun s => s == "a.htm")
      "a.htm" [] none 3 (by decide) (by decide)
    exact h

/-- Claim C2: for every TOC reference sequence and extracted-file set, the ranks
emitted by the Sequencer are the contiguous sequence `1..N` (`rankRange 1 N`
with `N` the number of emitted documents), and every emitted
`output_filename` of the form `{rank:04d}_{basename}` is unique within the
pass. -/
theorem C2_rank_density_unique_names (ex : String → Bool) (l : List String) :
    (copy_files_in_order ex l none 1).map Prod.fst
        = rankRange 1 (copy_files_in_order ex l none 1).length
      ∧ ((copy_files_in_order ex l none 1).map
          (fun p => output_filename p.1 p.2)).Nodup :=
  ⟨ranks_contiguous ex l none 1, output_names_nodup ex l none 1⟩

/-- Claim C4: a TOC reference whose candidate source path does not exist is
skipped silently: removing it from the TOC sequence changes nothing — no
output is emitted for it, no rank is consumed, the run is not aborted
(the Sequencer is a total function). -/
theorem C4_dangling_reference_skipped (ex : String → Bool) (m : String)
    (l1 l2 : List String) (last : Option String) (idx : Nat) (hm : ex m = false) :
    copy_files_in_order ex (l1 ++ m :: l2) last idx
      = copy_files_in_order ex (l1 ++ l2) last idx :=
  copy_files_skip_missing ex m hm l1 l2 last idx

/-- Witness for C4: a dangling reference in the middle of a concrete TOC
sequence is skipped. -/
theorem C4_witness :
    copy_files_in_order (fun s => s == "a.htm")
        (["a.htm"] ++ "m.htm" :: ["b.htm"]) none 1
      = copy_files_in_order (fun s => s == "a.htm") (["a.htm"] ++ ["b.htm"]) none 1 :=
  C4_dangling_reference_skipped _ "m.htm" ["a.htm"] ["b.htm"] none 1 (by decide)

/-- Claim C9: skipping a dangling reference does not reset the duplicate-collapse
state: for TOC order `[a, m, a]` with `a` existing and `m` missing, the
second occurrence of `a` is still collapsed, so only one document is
emitted. -/
theorem C9_skip_preserves_collapse_state (ex : String → Bool) (a m : String)
    (ha : ex a = true) (hm : ex m = false) :
    copy_files_in_order ex [a, m, a] none 1 = [(1, basename a)] := by
  have h := copy_files_skip_missing ex m hm [a] [a] none 1
  rw [show ([a] ++ m :: [a]) = [a, m, a] from rfl,
    show ([a] ++ [a]) = [a, a] from rfl] at h
  rw [h]
  simp [copy_files_in_order, ha]

/-- Witness for C9 at a concrete extracted-file set. -/
theorem C9_witness :
    copy_files_in_order (fun s => s == "a.htm") ["a.htm", "m.htm", "a.htm"] none 1
      = [(1, basename "a.htm")] :=
  C9_skip_preserves_collapse_state _ "a.htm" "m.htm" (by decide) (by decide)

/-! ### Claims about the TOC parsers -/

/-- When every matched `Local` param carries a `value` attribute, the
classic extraction succeeds and returns the raw values. -/
theorem extractValues_of_isSome :
    ∀ (l : List MarkupElem),
      (∀ e ∈ l, (lookupAttr "value" e).isSome = true) →
      extractValues l = Except.ok (l.filterMap (fun e => lookupAttr "value" e)) := by
  intro l
  induction l with
  | nil => intro _; rfl
  | cons e es ih =>
    intro h
    have he := h e (List.mem_cons_self e es)
    obtain ⟨v, hv⟩ := Option.isSome_iff_exists.mp he
    have hrest := ih (fun x hx => h x (List.mem_cons_of_mem _ hx))
    simp [extractValues, List.filterMap_cons, hv, hrest]

/-- Claim C6 (amended): the cloud TOC parser `parse_hhc_file` is total by
construction, yields the empty sequence on zero matches, and agrees with
the classic extraction whenever every matched `Local` param (matched
case-insensitively on the attribute value) carries a `value` attribute;
the classic generated-script extraction, by contrast, raises `KeyError`
on a matched param lacking a `value` attribute (see the counterexample). -/
theorem C6_toc_parser_totality (doc : List MarkupElem) :
    ((∀ e ∈ doc.filter (fun e => isLocalParam e),
        (lookupAttr "value" e).isSome = true) →
      orderHTM_extract doc = Except.ok (parse_hhc_file doc))
    ∧ (doc.filter (fun e => isLocalParam e) = [] →
        parse_hhc_file doc = [] ∧ orderHTM_extract doc = Except.ok []) := by
  constructor
  · intro hv
    rw [orderHTM_extract, extractValues_of_isSome _ hv]
    rw [parse_hhc_file]
    simp [List.map_filterMap, Except.map]
  · intro h0
    rw [parse_hhc_file, orderHTM_extract, h0]
    exact ⟨rfl, rfl⟩

/-- Counterexample to C6 as stated: the classic generated-script parser is
not total — a `param` with `name="Local"` (any case) but no `value`
attribute raises `KeyError` instead of being skipped. -/
theorem C6_counterexample :
    orderHTM_extract [⟨"param", [("name", "Local")], ""⟩]
      = Except.error "KeyError: value" := rfl

/-- Witness for C6 at a concrete document: case-insensitive matching,
fragment stripping, agreement of the two parsers. -/
theorem C6_witness :
    orderHTM_extract
        [⟨"param", [("name", "LOCAL"), ("value", "intro.htm#sec2")], ""⟩,
         ⟨"param", [("name", "local"), ("value", "ch1.htm")], ""⟩]
      = Except.ok (parse_hhc_file
          [⟨"param", [("name", "LOCAL"), ("value", "intro.htm#sec2")], ""⟩,
           ⟨"param", [("name", "local"), ("value", "ch1.htm")], ""⟩]) :=
  (C6_toc_parser_totality _).1 (by decide)

/-! ### Claims about the Asset Path Normalizer -/

theorem baseChars_no_slash : ∀ (l acc : List Char), '/' ∉ acc → '/' ∉ baseChars l acc := by
  intro l
  induction l with
  | nil => intro acc h; exact h
  | cons c rest ih =>
    intro acc h
    by_cases hc : c = '/'
    · rw [baseChars, if_pos hc]
      exact ih [] (by simp)
    · rw [baseChars, if_neg hc]
      refine ih (acc ++ [c]) ?_
      intro hmem
      rcases List.mem_append.mp hmem with h1 | h1
      · exact h h1
      · exact hc (List.mem_singleton.mp h1).symm

/-- A basename contains no directory separator. -/
theorem basename_no_slash (s : String) : '/' ∉ (basename s).data :=
  baseChars_no_slash s.data [] (by simp)

/-- Every attribute named `key` in `updateAttr key attrs` is the basename
of an attribute value of the original list. -/
theorem mem_updateAttr {key : String} {attrs : List (String × String)}
    {kv : String × String} (hmem : kv ∈ updateAttr key attrs) (hk : kv.1 = key) :
    ∃ v0, (key, v0) ∈ attrs ∧ kv.2 = basename v0 := by
  obtain ⟨kv0, h0, heq⟩ := List.mem_map.mp hmem
  by_cases h : (kv0.1 == key) = true
  · rw [if_pos h] at heq
    refine ⟨kv0.2, ?_, ?_⟩
    · have hkey : kv0.1 = key := eq_of_beq h
      rw [← hkey]
      exact h0
    · rw [← heq]
  · rw [if_neg h] at heq
    rw [← heq] at hk
    exact absurd (beq_iff_eq.mpr hk) h

theorem fixElem_tag (e : MarkupElem) : (fixElem e).tag = e.tag := by
  rw [fixElem]
  split_ifs <;> rfl

/-- Claim C8: every image `src`, stylesheet-link `href`, and script `src`
attribute of a processed document is the final path segment (the basename)
of some original value, and in particular contains zero directory
separators; concretely, `subdir/images/pic.png` becomes `pic.png`. -/
theorem C8_asset_paths_flattened :
    (∀ (doc : List MarkupElem) (e : MarkupElem) (kv : String × String),
        e ∈ fix_asset_paths doc → kv ∈ e.attrs →
        ((e.tag = "img" ∧ kv.1 = "src")
          ∨ (e.tag = "link" ∧ lookupAttr "rel" e = some "stylesheet" ∧ kv.1 = "href")
          ∨ (e.tag = "script" ∧ kv.1 = "src")) →
        (∃ v0, kv.2 = basename v0) ∧ '/' ∉ kv.2.data)
    ∧ basename "subdir/images/pic.png" = "pic.png" := by
  refine ⟨?_, by decide⟩
  intro doc e kv hmem hkv hcase
  obtain ⟨e0, he0, hfe⟩ := List.mem_map.mp hmem
  have hbase : ∃ v0, kv.2 = basename v0 := by
    rcases hcase with ⟨htag, hkey⟩ | ⟨htag, hrel, hkey⟩ | ⟨htag, hkey⟩
    · -- img
      have ht0 : e0.tag = "img" := by rw [← fixElem_tag e0, hfe, htag]
      have he : e = { e0 with attrs := updateAttr "src" e0.attrs } := by
        rw [← hfe, fixElem, if_pos (by simp [ht0])]
      obtain ⟨v0, _, hv⟩ := mem_updateAttr (by rw [he] at hkv; exact hkv) hkey
      exact ⟨v0, hv⟩
    · -- stylesheet link
      have ht0 : e0.tag = "link" := by rw [← fixElem_tag e0, hfe, htag]
      by_cases hrel0 : lookupAttr "rel" e0 = some "stylesheet"
      · have he : e = { e0 with attrs := updateAttr "href" e0.attrs } := by
          rw [← hfe, fixElem, if_neg (by simp [ht0]), if_pos (by simp [ht0, hrel0])]
        obtain ⟨v0, _, hv⟩ := mem_updateAttr (by rw [he] at hkv; exact hkv) hkey
        exact ⟨v0, hv⟩
      · have he : e = e0 := by
          rw [← hfe, fixElem, if_neg (by simp [ht0]),
            if_neg (by simp [ht0, hrel0]), if_neg (by simp [ht0])]
        rw [he] at hrel
        exact absurd hrel hrel0
    · -- script
      have ht0 : e0.tag = "script" := by rw [← fixElem_tag e0, hfe, htag]
      have he : e = { e0 with attrs := updateAttr "src" e0.attrs } := by
        rw [← hfe, fixElem, if_neg (by simp [ht0]), if_neg (by simp [ht0]),
          if_pos (by simp [ht0])]
      obtain ⟨v0, _, hv⟩ := mem_updateAttr (by rw [he] at hkv; exact hkv) hkey
      exact ⟨v0, hv⟩
  refine ⟨hbase, ?_⟩
  obtain ⟨v0, hv⟩ := hbase
  rw [hv]
  exact basename_no_slash v0

/-- Witness for C8: a concrete image reference is flattened to its final
path segment with no remaining separator. -/
theorem C8_witness :
    (∃ v0, ("pic.png" : String) = basename v0) ∧ '/' ∉ ("pic.png" : String).data :=
  C8_asset_paths_flattened.1
    [⟨"img", [("src", "subdir/images/pic.png")], ""⟩]
    ⟨"img", [("src", "pic.png")], ""⟩ ("src", "pic.png")
    (by decide) (by decide) (Or.inl ⟨rfl, rfl⟩)

/-! ### Claims about the batch failure policy -/

/-- Claim C5 (amended): in the cloud implementation, per-document processing is
wrapped per file — a raising document yields its own failure signal
(`none`) while every other document of the batch is still processed; in
the classic implementation `removeText_main` has no per-document handler,
so one raising document aborts the batch (see the counterexample). -/
theorem C5_cloud_skip_and_continue :
    (∀ msg, process_single_file (Except.error msg) = none)
    ∧ (∀ d, process_single_file (Except.ok d) = some (process_doc_cloud d))
    ∧ (∀ files, (files.all (fun f => (rank_key f.1).isSome)) = true →
        ∃ l, process_all files = Except.ok l ∧ l.length = files.length ∧
          ∀ p ∈ files, (p.1, process_single_file p.2) ∈ l) := by
  refine ⟨fun msg => rfl, fun d => rfl, ?_⟩
  intro files hall
  refine ⟨(List.insertionSort rankLe files).map
    (fun f => (f.1, process_single_file f.2)), ?_, ?_, ?_⟩
  · rw [process_all, if_pos hall]
  · rw [List.length_map, (List.perm_insertionSort rankLe files).length_eq]
  · intro p hp
    exact List.mem_map_of_mem _ ((List.perm_insertionSort rankLe files).mem_iff.mpr hp)

/-- Counterexample to C5 as stated: in the classic batch
(`removeText.py`), a failure while processing the second document aborts
the whole run — the third document is never processed and no result list
is produced. -/
theorem C5_counterexample :
    removeText_main demoBatch = Except.error "UnicodeDecodeError" := rfl

/-- Witness for C5 at a concrete batch with one failing document. -/
theorem C5_witness :
    ∃ l, process_all demoBatch = Except.ok l
      ∧ l.length = demoBatch.length
      ∧ ∀ p ∈ demoBatch, (p.1, process_single_file p.2) ∈ l :=
  C5_cloud_skip_and_continue.2.2 demoBatch (by decide)

/-! ### Helper lemmas: asset flattening -/

/-- A flattening run only appends: the result is the initial state
followed by the added files. -/
theorem flattenGo_eq : ∀ (l acc : List FsFile),
    flattenGo acc l = acc ++ addedFiles acc l := by
  intro l
  induction l with
  | nil => intro acc; simp [flattenGo, addedFiles]
  | cons f rest ih =>
    intro acc
    by_cases h : flattenCond acc f = true
    · rw [flattenGo, if_pos h, addedFiles, if_pos h, ih, List.append_assoc]
      rfl
    · rw [flattenGo, if_neg h, addedFiles, if_neg h]
      exact ih acc

theorem existsTop_append (a b : List FsFile) (n : String) :
    existsTop (a ++ b) n = (existsTop a n || existsTop b n) := by
  simp [existsTop, List.any_append]

/-- Every added file is a top-level entry whose name was absent from the
top level of the state at (hence also before) the moment it was copied. -/
theorem added_top_fresh : ∀ (l acc : List FsFile) (g : FsFile),
    g ∈ addedFiles acc l → g.dir = [] ∧ existsTop acc g.name = false := by
  intro l
  induction l with
  | nil => intro acc g hg; simp [addedFiles] at hg
  | cons f rest ih =>
    intro acc g hg
    by_cases h : flattenCond acc f = true
    · rw [addedFiles, if_pos h] at hg
      rcases List.mem_cons.mp hg with hg | hg
      · subst hg
        refine ⟨rfl, ?_⟩
        have h2 := h
        simp only [flattenCond, Bool.and_eq_true, Bool.not_eq_true'] at h2
        exact h2.2
      · have h2 := ih (acc ++ [⟨[], f.name, f.content⟩]) g hg
        refine ⟨h2.1, ?_⟩
        have h3 := h2.2
        rw [existsTop_append] at h3
        exact (Bool.or_eq_false_iff.mp h3).1
    · rw [addedFiles, if_neg h] at hg
      exact ih acc g hg

/-- A name present at the top level stays present through a run. -/
theorem existsTop_mono (l acc : List FsFile) (n : String)
    (h : existsTop acc n = true) : existsTop (flattenGo acc l) n = true := by
  rw [flattenGo_eq, existsTop_append, h]
  rfl

/-- After a run, every walked asset candidate's name is present at the top
level. -/
theorem cand_covered : ∀ (l acc : List FsFile) (f : FsFile),
    f ∈ l → isDocFile f.name = false → f.dir ≠ [] →
    existsTop (flattenGo acc l) f.name = true := by
  intro l
  induction l with
  | nil => intro acc f hf _ _; simp at hf
  | cons f0 rest ih =>
    intro acc f hf hdoc hdir
    rcases List.mem_cons.mp hf with hf | hf
    · subst hf
      by_cases h : flattenCond acc f = true
      · rw [flattenGo, if_pos h]
        apply existsTop_mono
        rw [existsTop_append]
        simp [existsTop]
      · rw [flattenGo, if_neg h]
        apply existsTop_mono
        cases hex : existsTop acc f.name with
        | true => rfl
        | false =>
          exfalso
          apply h
          simp [flattenCond, hdoc, hdir, hex]
    · by_cases h : flattenCond acc f0 = true
      · rw [flattenGo, if_pos h]
        exact ih _ f hf hdoc hdir
      · rw [flattenGo, if_neg h]
        exact ih _ f hf hdoc hdir

/-- If every walked candidate's name is already at the top level, a run
adds nothing. -/
theorem added_nil_of_covered : ∀ (l acc : List FsFile),
    (∀ f ∈ l, isDocFile f.name = false → f.dir ≠ [] → existsTop acc f.name = true) →
    addedFiles acc l = [] := by
  intro l
  induction l with
  | nil => intro acc _; rfl
  | cons f0 rest ih =>
    intro acc h
    have hcond : ¬(flattenCond acc f0 = true) := by
      intro hc
      simp only [flattenCond, Bool.and_eq_true, Bool.not_eq_true',
        decide_eq_true_eq] at hc
      have := h f0 (List.mem_cons_self f0 rest) hc.1.1 hc.1.2
      rw [this] at hc
      exact absurd hc.2 (by decide)
    rw [addedFiles, if_neg hcond]
    exact ih acc (fun f hf => h f (List.mem_cons_of_mem _ hf))

/-- Once a name is present at the top level, no later copy targets it. -/
theorem added_blocked (l acc : List FsFile) (b : String)
    (h : existsTop acc b = true) :
    (addedFiles acc l).filter (fun g => g.name == b) = [] := by
  rw [List.filter_eq_nil_iff]
  intro g hg hgb
  have h2 := (added_top_fresh l acc g hg).2
  rw [eq_of_beq hgb, h] at h2
  exact absurd h2 (by decide)

/-- Among the walked candidates competing for an absent top-level name,
exactly the first one in walk order lands there; if none compete, the name
is never added. -/
theorem added_first_candidate :
    ∀ (l acc : List FsFile) (b : String), existsTop acc b = false →
      (l.filter (fun f => !(isDocFile f.name) && decide (f.dir ≠ []) && (f.name == b)) = []
          → (addedFiles acc l).filter (fun g => g.name == b) = [])
        ∧ (∀ c cs,
            l.filter (fun f => !(isDocFile f.name) && decide (f.dir ≠ []) && (f.name == b))
              = c :: cs →
            (addedFiles acc l).filter (fun g => g.name == b) = [⟨[], b, c.content⟩]) := by
  intro l
  induction l with
  | nil =>
    intro acc b _
    exact ⟨fun _ => rfl, fun c cs h => by simp [List.filter_nil] at h⟩
  | cons f0 rest ih =>
    intro acc b hb
    by_cases hP : (!(isDocFile f0.name) && decide (f0.dir ≠ []) && (f0.name == b)) = true
    · -- f0 is the first candidate for b
      have hparts := hP
      simp only [Bool.and_eq_true, Bool.not_eq_true', decide_eq_true_eq] at hparts
      have hdoc : isDocFile f0.name = false := hparts.1.1
      have hdir : f0.dir ≠ [] := hparts.1.2
      have hnameb : f0.name = b := eq_of_beq hparts.2
      have hexf : existsTop acc f0.name = false := by rw [hnameb]; exact hb
      have hcond : flattenCond acc f0 = true := by
        simp [flattenCond, hdoc, hdir, hexf]
      have hfilter :
          (f0 :: rest).filter
              (fun f => !(isDocFile f.name) && decide (f.dir ≠ []) && (f.name == b))
            = f0 :: rest.filter
                (fun f => !(isDocFile f.name) && decide (f.dir ≠ []) && (f.name == b)) := by
        rw [List.filter_cons, if_pos hP]
      have hadded :
          (addedFiles acc (f0 :: rest)).filter (fun g => g.name == b)
            = [⟨[], b, f0.content⟩] := by
        rw [addedFiles, if_pos hcond, List.filter_cons, if_pos hparts.2]
        have hblocked := added_blocked rest (acc ++ [⟨[], f0.name, f0.content⟩]) b
          (by rw [existsTop_append]
              simp [existsTop, hnameb])
        rw [hblocked, hnameb]
      constructor
      · intro hnil
        rw [hfilter] at hnil
        exact absurd hnil (List.cons_ne_nil _ _)
      · intro c cs hc
        rw [hfilter] at hc
        have hcf : c = f0 := (List.cons.injEq _ _ _ _ ▸ hc).1.symm
        rw [hadded, hcf]
    · -- f0 does not compete for b
      have hname0 : (f0.name == b) = false ∨ flattenCond acc f0 = false := by
        by_cases hc : flattenCond acc f0 = true
        · left
          cases hnb : f0.name == b with
          | false => rfl
          | true =>
            exfalso
            apply hP
            simp only [flattenCond, Bool.and_eq_true] at hc
            simp [hc.1.1, hc.1.2, hnb]
        · right
          exact Bool.not_eq_true _ ▸ Bool.of_not_eq_true hc
      have hfilter :
          (f0 :: rest).filter
              (fun f => !(isDocFile f.name) && decide (f.dir ≠ []) && (f.name == b))
            = rest.filter
                (fun f => !(isDocFile f.name) && decide (f.dir ≠ []) && (f.name == b)) := by
        rw [List.filter_cons, if_neg hP]
      by_cases hc : flattenCond acc f0 = true
      · have hnb : (f0.name == b) = false := by
          rcases hname0 with h | h
          · exact h
          · rw [hc] at h; exact absurd h (by simp)
        have hb2 : existsTop (acc ++ [⟨[], f0.name, f0.content⟩]) b = false := by
          rw [existsTop_append, hb]
          simp [existsTop, hnb]
        have ihr := ih (acc ++ [⟨[], f0.name, f0.content⟩]) b hb2
        constructor
        · intro hnil
          rw [hfilter] at hnil
          rw [addedFiles, if_pos hc, List.filter_cons, if_neg (by simp [hnb])]
          exact ihr.1 hnil
        · intro c cs hcs
          rw [hfilter] at hcs
          rw [addedFiles, if_pos hc, List.filter_cons, if_neg (by simp [hnb])]
          exact ihr.2 c cs hcs
      · have ihr := ih acc b hb
        constructor
        · intro hnil
          rw [hfilter] at hnil
          rw [addedFiles, if_neg hc]
          exact ihr.1 hnil
        · intro c cs hcs
          rw [hfilter] at hcs
          rw [addedFiles, if_neg hc]
          exact ihr.2 c cs hcs

/-! ### Claims about asset flattening -/

/-- Claim C7: the asset-flattening pass is idempotent — running it twice
produces the same final file set as running it once, because every
destination that already exists at the top level is skipped. -/
theorem C7_flattening_idempotent (fs : List FsFile) :
    copy_assets_to_flat_structure (copy_assets_to_flat_structure fs)
      = copy_assets_to_flat_structure fs := by
  have h1 : copy_assets_to_flat_structure fs = fs ++ addedFiles fs fs :=
    flattenGo_eq fs fs
  have hnil : addedFiles (fs ++ addedFiles fs fs) (fs ++ addedFiles fs fs) = [] := by
    apply added_nil_of_covered
    intro f hf hdoc hdir
    rcases List.mem_append.mp hf with hf | hf
    · have h2 := cand_covered fs fs f hf hdoc hdir
      rw [flattenGo_eq] at h2
      exact h2
    · exact absurd (added_top_fresh fs fs f hf).1 hdir
  calc copy_assets_to_flat_structure (copy_assets_to_flat_structure fs)
      = (fs ++ addedFiles fs fs)
          ++ addedFiles (fs ++ addedFiles fs fs) (fs ++ addedFiles fs fs) := by
        rw [h1]
        exact flattenGo_eq _ _
    _ = fs ++ addedFiles fs fs := by rw [hnil, List.append_nil]
    _ = copy_assets_to_flat_structure fs := h1.symm

/-- Claim C10: the flattening pass never modifies or overwrites anything — the
output is the input followed verbatim by the added files, every added file
is top-level under a name that was absent from the top level beforehand,
and for a basename absent from the top level with competing subdirectory
candidates, exactly the first candidate in walk order lands at the top
level (every later one is silently dropped). -/
theorem C10_no_overwrite (fs : List FsFile) (b : String) :
    (copy_assets_to_flat_structure fs = fs ++ addedFiles fs fs)
    ∧ (∀ g ∈ addedFiles fs fs, g.dir = [] ∧ existsTop fs g.name = false)
    ∧ (existsTop fs b = false →
        ∀ c cs,
          fs.filter (fun f => !(isDocFile f.name) && decide (f.dir ≠ []) && (f.name == b))
            = c :: cs →
          (copy_assets_to_flat_structure fs).filter
              (fun g => decide (g.dir = []) && (g.name == b))
            = [⟨[], b, c.content⟩]) := by
  refine ⟨flattenGo_eq fs fs, fun g hg => added_top_fresh fs fs g hg, ?_⟩
  intro hb c cs hcand
  rw [show copy_assets_to_flat_structure fs = fs ++ addedFiles fs fs from
    flattenGo_eq fs fs]
  rw [List.filter_append]
  have h1 : fs.filter (fun g => decide (g.dir = []) && (g.name == b)) = [] := by
    rw [List.filter_eq_nil_iff]
    intro g hg hgp
    have h2 : existsTop fs b = true := by
      rw [existsTop]
      exact List.any_eq_true.mpr ⟨g, hg, hgp⟩
    rw [hb] at h2
    exact Bool.false_ne_true h2
  have h2 : (addedFiles fs fs).filter (fun g => decide (g.dir = []) && (g.name == b))
      = (addedFiles fs fs).filter (fun g => g.name == b) := by
    apply List.filter_congr
    intro g hg
    have hd := (added_top_fresh fs fs g hg).1
    simp [hd]
  rw [h1, h2, (added_first_candidate fs fs b hb).2 c cs hcand]
  rfl

/-- Witness for C10: two subdirectory files share the basename `pic.png`;
after the pass the unique top-level `pic.png` holds the first one's
content. -/
theorem C10_witness :
    (copy_assets_to_flat_structure
        [⟨["sub1"], "pic.png", 1⟩, ⟨["sub2"], "pic.png", 2⟩]).filter
        (fun g => decide (g.dir = []) && (g.name == "pic.png"))
      = [⟨[], "pic.png", 1⟩] :=
  (C10_no_overwrite _ "pic.png").2.2 (by decide)
    ⟨["sub1"], "pic.png", 1⟩ [⟨["sub2"], "pic.png", 2⟩] (by decide)

/-! ### Claims about the Merge Order Resolver -/

/-- Claim C3 (amended): the classic resolver outputs a permutation of the input
that is sorted ascending by `extract_number`, which takes the integer from
the first digit group immediately followed by `_` anywhere in the basename,
else from the leading digits, and only failing both assigns the sentinel
`999999` that sorts last; the spec's round-trip example holds; the cloud
implementation's merge key raises (has no sentinel) on a basename with no
digit group followed by `_`. -/
theorem C3_merge_order (files : List String) :
    (combine_pdfs_order files).Perm files
    ∧ List.Pairwise pdfLe (combine_pdfs_order files)
    ∧ (∀ name, findDigitsUnderscore [] (basename name).data = none →
        leadingDigits (basename name).data = none →
        extract_number name = 999999)
    ∧ combine_pdfs_order ["0002_x.pdf", "0001_y.pdf", "0010_z.pdf"]
        = ["0001_y.pdf", "0002_x.pdf", "0010_z.pdf"]
    ∧ cloud_extract_number "nodigits.pdf" = none := by
  refine ⟨List.perm_insertionSort pdfLe files,
    List.sorted_insertionSort pdfLe files, ?_, by decide, by decide⟩
  intro name h1 h2
  rw [extract_number, h1, h2]

/-- Counterexample to C3 as stated: `ab12_c.pdf` has no leading digit
group before `_`, so the claim assigns it the sentinel rank and predicts
it sorts after `0013_x.pdf`; the code's unanchored regex finds `12_`
mid-name, ranks it 12, and sorts it first. -/
theorem C3_counterexample :
    combine_pdfs_order ["0013_x.pdf", "ab12_c.pdf"] ≠ ["0013_x.pdf", "ab12_c.pdf"]
    ∧ combine_pdfs_order ["0013_x.pdf", "ab12_c.pdf"] = ["ab12_c.pdf", "0013_x.pdf"]
    ∧ extract_number "ab12_c.pdf" = 12 :=
  ⟨by decide, by decide, by decide⟩

/-- Witness for C3: the sentinel applies to a name with no digit group at
all. -/
theorem C3_witness : extract_number "nodigits.pdf" = 999999 :=
  (C3_merge_order []).2.2.1 "nodigits.pdf" (by decide) (by decide)

